import Mathlib

/-!
Verification of the blocked sorted sequence (`ArrayTree`) from
`src/array_tree.rs` and its binary search primitive `binary_search_by`.

Modelling conventions:
* Rust `Vec<T>` becomes `List T`; `Vec<Vec<T>>` becomes `List (List T)`.
* The comparator field `C : Fn(&T, &T) -> Ordering` is passed as an explicit
  function parameter `cmp : T → T → Ordering`; the Rust code never writes to
  this field, so threading it as a parameter is faithful.
* `usize` and `u16` values (indices, lengths, `capacity`, `num_elements`)
  become `Nat`; none of the arithmetic performed on them (`+1`, `-`, `/2`)
  can overflow for any sequence of operations a machine could execute, and
  all subtractions are guarded (`r - l` under `l < r`, `idx - 1` under
  `idx > 0`), so `Nat` arithmetic coincides with the machine arithmetic.
* Any indexing that can panic in Rust (`block[0]`, `data[idx]`,
  slice bounds) is modelled in `Option`: `none` is a panic/fault.
* The `while r > l` loop of `binary_search_by` is modelled by structural
  recursion on a fuel counter initialised to `data.length`.  Each iteration
  strictly decreases `r - l`, so `data.length ≥ r₀ - l₀` iterations always
  suffice; when fuel reaches `0` we necessarily have `l ≥ r` and we return
  `(r, false)`, which is exactly the value the loop exit returns.
-/

/-- Rust `it..upto` slicing of a vector, `v[from..upto]`: the elements at
indices `from, from+1, …, upto-1`.  (In Rust this panics when
`upto > v.len()`; every use below occurs under the guard
`capacity ≤ block.length`, which makes the slice in bounds.) -/
def listSlice (l : List α) (start upto : Nat) : List α :=
  (l.take upto).drop start

/-- Rust `Vec::insert(i, a)`: insert `a` at position `i`, shifting later
elements right.  Total here; every call site has `i ≤ l.length`, where this
agrees with Rust (Rust panics for `i > len`). -/
def insertAt (i : Nat) (a : α) (l : List α) : List α :=
  l.take i ++ a :: l.drop i

/-- The loop of `binary_search_by` from `src/array_tree.rs`, narrowing the
half-open window `[l, r)`.  `d` is a default element used only for the
(unreachable, since `mid < r ≤ data.length`) out-of-bounds read. -/
def bsLoop (f : α → Ordering) (data : List α) (d : α) :
    Nat → Nat → Nat → Nat × Bool
  | 0, _, r => (r, false)
  | fuel + 1, l, r =>
    if l < r then
      let mid := l + (r - l) / 2
      match f (data.getD mid d) with
      | Ordering.gt => bsLoop f data d fuel l mid
      | Ordering.eq => (mid, true)
      | Ordering.lt => bsLoop f data d fuel (mid + 1) r
    else (r, false)

/-- Translation of `binary_search_by` from `src/array_tree.rs`: returns
`(index, exact_match)` for the comparison function `f` over `data`. -/
def binary_search_by (data : List α) (f : α → Ordering) : Nat × Bool :=
  match data with
  | [] => (0, false)
  | d :: _ => bsLoop f data d data.length 0 data.length

/-- Variant of the `binary_search_by` loop whose comparison function can
fault (`none`), used for the block-head search in `ArrayTree::insert`, whose
closure evaluates `block[0]` and hence panics on an empty block.  A `none`
result models the panic.  Probes are modelled with `List.get?` so that an
out-of-window read would also fault (it cannot, since `mid < r ≤ length`). -/
def bsLoopF (f : α → Option Ordering) (data : List α) :
    Nat → Nat → Nat → Option (Nat × Bool)
  | 0, _, r => some (r, false)
  | fuel + 1, l, r =>
    if l < r then
      let mid := l + (r - l) / 2
      match data.get? mid with
      | none => none
      | some x =>
        match f x with
        | none => none
        | some Ordering.gt => bsLoopF f data fuel l mid
        | some Ordering.eq => some (mid, true)
        | some Ordering.lt => bsLoopF f data fuel (mid + 1) r
    else some (r, false)

/-- Wrapper around `bsLoopF`, mirroring `binary_search_by`, for a
faulting comparison function. -/
def bsearchF (data : List α) (f : α → Option Ordering) :
    Option (Nat × Bool) :=
  if data.length = 0 then some (0, false)
  else bsLoopF f data data.length 0 data.length

/-- The `ArrayTree` struct of `src/array_tree.rs` (comparator field aside,
see the module comment): a sequence of blocks, the block capacity, and the
cached element count. -/
structure ArrayTree (T : Type) where
  data : List (List T)
  capacity : Nat
  num_elements : Nat
deriving DecidableEq, Repr

namespace ArrayTree

/-- Constructor `ArrayTree::new(comparator, capacity)`. -/
def new (capacity : Nat) : ArrayTree T :=
  { data := [], capacity := capacity, num_elements := 0 }

/-- Size query `ArrayTree::len`. -/
def len (s : ArrayTree T) : Nat :=
  s.num_elements

/-- Export `ArrayTree::collect`, which traverses all blocks in order and pushes
every element into a flat vector (`traverse` composed with `push`). -/
def collect (s : ArrayTree T) : List T :=
  s.data.flatten

/-- The split step of `ArrayTree::insert` (source lines 56–73): when the
candidate block is at (or beyond) capacity, cut it at `capacity / 2`,
keep the front half in place, insert the tail half
(`block[capacity/2 .. capacity]`) as a brand-new block immediately after
the candidate, and advance the candidate index to the tail block when the
pending value compares `gt` against the tail head (`data[idx+1][0]`; its
read on an empty tail — possible only for capacity 0 — is the modelled
panic `none`).  Returns the updated block sequence and candidate index. -/
def splitStep (cmp : T → T → Ordering) (capacity : Nat)
    (data : List (List T)) (idxBlock : Nat) (block0 : List T) (t : T) :
    Option (List (List T) × Nat) :=
  if capacity ≤ block0.length then
    let tailFrom := capacity / 2
    let blockTail := listSlice block0 tailFrom capacity
    match blockTail.head? with
    | none => none
    | some h0 =>
      let d1 := data.set idxBlock (block0.take tailFrom)
      let d2 := insertAt (idxBlock + 1) blockTail d1
      if cmp t h0 = Ordering.gt then some (d2, idxBlock + 1)
      else some (d2, idxBlock)
  else some (data, idxBlock)

/-- The placement step of `ArrayTree::insert` (source lines 75–96): binary
search for the value inside the candidate block, return `false` on an
exact match (leaving the — possibly already split — block sequence in
place), otherwise insert the value at the found position (append when the
position is the block end) and increment the count. -/
def placeStep (cmp : T → T → Ordering) (s : ArrayTree T)
    (data1 : List (List T)) (idx1 : Nat) (block1 : List T) (t : T) :
    ArrayTree T × Bool :=
  let p := binary_search_by block1 (fun x => cmp x t)
  if p.2 then
    ({ s with data := data1 }, false)
  else
    let newBlock :=
      if p.1 < block1.length then insertAt p.1 t block1
      else block1 ++ [t]
    ({ s with
        data := data1.set idx1 newBlock
        num_elements := s.num_elements + 1 },
      true)

/-- Translation of `ArrayTree::insert` from `src/array_tree.rs`, in
`Option`: a `none`
result models an out-of-bounds panic.  Mirrors the source step by step:
the empty-tree fast path (which does NOT touch `num_elements`), the
block-head binary search (whose closure reads `block[0]`), the
first-larger to last-smaller index conversion, then `splitStep` and
`placeStep` above. -/
def insert (cmp : T → T → Ordering) (s : ArrayTree T) (t : T) :
    Option (ArrayTree T × Bool) :=
  if s.data.length = 0 then
    some ({ s with data := [[t]] }, true)
  else
    match bsearchF s.data (fun block => (block.head?).map (fun h => cmp h t)) with
    | none => none
    | some (idxB, equalsB) =>
      if equalsB then
        some (s, false)
      else
        let idxBlock := if 0 < idxB then idxB - 1 else 0
        match s.data.get? idxBlock with
        | none => none
        | some block0 =>
          match splitStep cmp s.capacity s.data idxBlock block0 t with
          | none => none
          | some (data1, idx1) =>
            match data1.get? idx1 with
            | none => none
            | some block1 => some (placeStep cmp s data1 idx1 block1 t)

/-- Runs a sequence of `insert` calls left to right, propagating a fault. -/
def insertSeq (cmp : T → T → Ordering) (ts : List T) (s : ArrayTree T) :
    Option (ArrayTree T) :=
  match ts with
  | [] => some s
  | t :: rest =>
    match insert cmp s t with
    | none => none
    | some (s1, _) => insertSeq cmp rest s1

end ArrayTree

/-- The natural total-order comparator on `Nat`, as the tests of
`src/array_tree.rs` use on `i32`. -/
def natCmp (a b : Nat) : Ordering :=
  if a < b then Ordering.lt else if a = b then Ordering.eq else Ordering.gt

/-- Spec-side predicate: a list is strictly ascending under a comparator. -/
def strictAscending (cmp : T → T → Ordering) (l : List T) : Prop :=
  List.Chain' (fun a b => cmp a b = Ordering.lt) l

/-- Spec-side predicate: every block of the tree has length at most `cap`. -/
def blocksLenLe (s : ArrayTree T) (cap : Nat) : Prop :=
  ∀ b ∈ s.data, b.length ≤ cap

/-- Spec-side predicate: every block of the tree is non-empty. -/
def blocksNonempty (s : ArrayTree T) : Prop :=
  ∀ b ∈ s.data, b ≠ []

/-- The structural invariant used in the inductive proofs: every block is
non-empty and no block exceeds the configured capacity. -/
def TreeInv (s : ArrayTree T) : Prop :=
  ∀ b ∈ s.data, b ≠ [] ∧ b.length ≤ s.capacity

/-- Linear-scan lower bound: index of the first element whose comparison is
not `lt` (the length of the list when every comparison is `lt`).  For a
sequence that is sorted with respect to `f` this is the position of the
`eq` element when one exists, and otherwise the position of the first `gt`
element, i.e. the correct insertion point. -/
def lowerBoundLinear (f : α → Ordering) : List α → Nat
  | [] => 0
  | x :: xs =>
    if f x = Ordering.lt then lowerBoundLinear f xs + 1 else 0

/-- Linear scan for an exact match: does any element compare `eq`. -/
def hasEq (f : α → Ordering) (data : List α) : Bool :=
  data.any (fun x => f x = Ordering.eq)

/-- Rank of an `Ordering` value, with `lt < eq < gt`. -/
def ordRank : Ordering → Nat
  | Ordering.lt => 0
  | Ordering.eq => 1
  | Ordering.gt => 2

/-- Hypothesis of the search-primitive claim: the sequence is sorted
ascending with respect to the per-element comparison `f` — comparisons are
monotone along the list and at most one element compares `eq` (as is the
case for a strictly sorted sequence compared against a fixed target under a
total order). -/
def sortedForSearch (f : α → Ordering) (data : List α) : Prop :=
  List.Pairwise
    (fun a b =>
      ordRank (f a) ≤ ordRank (f b) ∧
      ¬(f a = Ordering.eq ∧ f b = Ordering.eq))
    data

/-- Full contract of `binary_search_by`: the result coincides with the
linear-scan reference; on an exact match the returned index holds an `eq`
element; otherwise every element below the returned index compares `lt`
and every element at or above it compares `gt` (so the index is the first
`gt` position, the insertion point); and the empty sequence gives
`(0, false)`. -/
def bsearchContract (data : List α) (f : α → Ordering) : Prop :=
  binary_search_by data f = (lowerBoundLinear f data, hasEq f data) ∧
  (hasEq f data = true →
    ∃ h : (binary_search_by data f).1 < data.length,
      f (data.get ⟨(binary_search_by data f).1, h⟩) = Ordering.eq) ∧
  (hasEq f data = false →
    (∀ i (hi : i < data.length), i < (binary_search_by data f).1 →
      f (data.get ⟨i, hi⟩) = Ordering.lt) ∧
    (∀ i (hi : i < data.length), (binary_search_by data f).1 ≤ i →
      f (data.get ⟨i, hi⟩) = Ordering.gt)) ∧
  (data = [] → binary_search_by data f = (0, false))

/-- Frame shape of one `insert` call: the capacity is unchanged and the
block sequence is unchanged except that the one candidate block at some
position `i` is replaced in place by at most two blocks (the possibly
modified candidate and, after a split, the new tail block immediately
after it). -/
def frameShape (old new : ArrayTree T) : Prop :=
  new.capacity = old.capacity ∧
  ∃ i mid, i ≤ old.data.length ∧ mid.length ≤ 2 ∧
    new.data = old.data.take i ++ mid ++ old.data.drop (i + 1)

/-! ## Correctness of the binary search primitive -/

theorem ordRank_eq_zero {o : Ordering} (h : ordRank o = 0) : o = Ordering.lt := by
  cases o <;> simp [ordRank] at h ⊢

theorem ordRank_eq_two {o : Ordering} (h : 2 ≤ ordRank o) : o = Ordering.gt := by
  cases o <;> simp [ordRank] at h ⊢

/-- One-step unfolding of the `bsLoop` recursion in the looping case. -/
theorem bsLoop_step (f : α → Ordering) (data : List α) (d : α)
    (fuel l r : Nat) (h : l < r) :
    bsLoop f data d (fuel + 1) l r =
      match f (data.getD (l + (r - l) / 2) d) with
      | Ordering.gt => bsLoop f data d fuel l (l + (r - l) / 2)
      | Ordering.eq => (l + (r - l) / 2, true)
      | Ordering.lt => bsLoop f data d fuel (l + (r - l) / 2 + 1) r := by
  rw [bsLoop]
  simp only [if_pos h]

/-- Main loop invariant proof for `bsLoop`: under a monotone comparison
function, starting from a window `[l, r)` whose outside is already decided
(everything below `l` compares `lt`, everything at or above `r` compares
`gt`), the loop either stops on an `eq` element or returns the first `gt`
position with `exact_match = false`. -/
theorem bsLoop_spec (f : α → Ordering) (data : List α) (d : α)
    (hmono : ∀ i j (hi : i < data.length) (hj : j < data.length), i ≤ j →
      ordRank (f (data.get ⟨i, hi⟩)) ≤ ordRank (f (data.get ⟨j, hj⟩))) :
    ∀ fuel l r, l ≤ r → r ≤ data.length → r - l ≤ fuel →
    (∀ i (hi : i < data.length), i < l → f (data.get ⟨i, hi⟩) = Ordering.lt) →
    (∀ i (hi : i < data.length), r ≤ i → f (data.get ⟨i, hi⟩) = Ordering.gt) →
    (∃ h : (bsLoop f data d fuel l r).1 < data.length,
        (bsLoop f data d fuel l r).2 = true ∧
        f (data.get ⟨(bsLoop f data d fuel l r).1, h⟩) = Ordering.eq) ∨
    ((bsLoop f data d fuel l r).2 = false ∧
      (bsLoop f data d fuel l r).1 ≤ data.length ∧
      (∀ i (hi : i < data.length), i < (bsLoop f data d fuel l r).1 →
        f (data.get ⟨i, hi⟩) = Ordering.lt) ∧
      (∀ i (hi : i < data.length), (bsLoop f data d fuel l r).1 ≤ i →
        f (data.get ⟨i, hi⟩) = Ordering.gt)) := by
  intro fuel
  induction fuel with
  | zero =>
    intro l r hlr hrn hfuel h1 h2
    have hlr2 : l = r := by omega
    subst hlr2
    exact Or.inr ⟨rfl, hrn, h1, h2⟩
  | succ fuel ih =>
    intro l r hlr hrn hfuel h1 h2
    by_cases hwin : l < r
    · have hmidlt : l + (r - l) / 2 < r := by omega
      have hmidge : l ≤ l + (r - l) / 2 := by omega
      have hmidn : l + (r - l) / 2 < data.length := by omega
      have hgetD : data.getD (l + (r - l) / 2) d =
          data.get ⟨l + (r - l) / 2, hmidn⟩ := List.getD_eq_get data d hmidn
      cases hcmp : f (data.get ⟨l + (r - l) / 2, hmidn⟩) with
      | eq =>
        have hres : bsLoop f data d (fuel + 1) l r = (l + (r - l) / 2, true) := by
          rw [bsLoop_step f data d fuel l r hwin, hgetD, hcmp]
        rw [hres]
        exact Or.inl ⟨hmidn, rfl, hcmp⟩
      | lt =>
        have hres : bsLoop f data d (fuel + 1) l r =
            bsLoop f data d fuel (l + (r - l) / 2 + 1) r := by
          rw [bsLoop_step f data d fuel l r hwin, hgetD, hcmp]
        rw [hres]
        have h1' : ∀ i (hi : i < data.length), i < l + (r - l) / 2 + 1 →
            f (data.get ⟨i, hi⟩) = Ordering.lt := by
          intro i hi hilt
          have hle : ordRank (f (data.get ⟨i, hi⟩)) ≤
              ordRank (f (data.get ⟨l + (r - l) / 2, hmidn⟩)) :=
            hmono i (l + (r - l) / 2) hi hmidn (by omega)
          rw [hcmp] at hle
          exact ordRank_eq_zero (by simpa [ordRank] using hle)
        exact ih (l + (r - l) / 2 + 1) r (by omega) hrn (by omega) h1' h2
      | gt =>
        have hres : bsLoop f data d (fuel + 1) l r =
            bsLoop f data d fuel l (l + (r - l) / 2) := by
          rw [bsLoop_step f data d fuel l r hwin, hgetD, hcmp]
        rw [hres]
        have h2' : ∀ i (hi : i < data.length), l + (r - l) / 2 ≤ i →
            f (data.get ⟨i, hi⟩) = Ordering.gt := by
          intro i hi hile
          have hle : ordRank (f (data.get ⟨l + (r - l) / 2, hmidn⟩)) ≤
              ordRank (f (data.get ⟨i, hi⟩)) :=
            hmono (l + (r - l) / 2) i hmidn hi hile
          rw [hcmp] at hle
          exact ordRank_eq_two (by simpa [ordRank] using hle)
        exact ih l (l + (r - l) / 2) hmidge (by omega) (by omega) h1 h2'
    · have hlr2 : l = r := by omega
      have hres : bsLoop f data d (fuel + 1) l r = (r, false) := by
        rw [bsLoop]
        simp only [if_neg hwin]
      rw [hres]
      refine Or.inr ⟨rfl, hrn, ?_, h2⟩
      intro i hi hil
      exact h1 i hi (by omega)

/-- Characterisation of the linear lower bound: if everything strictly
below `k` compares `lt` and position `k` (when it exists) does not, the
linear scan stops exactly at `k`. -/
theorem lowerBoundLinear_eq (f : α → Ordering) (data : List α) (k : Nat)
    (hk : k ≤ data.length)
    (hlt : ∀ i (hi : i < data.length), i < k → f (data.get ⟨i, hi⟩) = Ordering.lt)
    (hnk : ∀ h : k < data.length, f (data.get ⟨k, h⟩) ≠ Ordering.lt) :
    lowerBoundLinear f data = k := by
  induction data generalizing k with
  | nil =>
    simp only [List.length_nil, Nat.le_zero] at hk
    simp [lowerBoundLinear, hk]
  | cons x xs ih =>
    cases k with
    | zero =>
      have hx : f x ≠ Ordering.lt := hnk (by simp)
      simp [lowerBoundLinear, hx]
    | succ k =>
      have hx : f x = Ordering.lt := hlt 0 (by simp) (by omega)
      have hk' : k ≤ xs.length := by simpa using hk
      have hlt' : ∀ i (hi : i < xs.length), i < k →
          f (xs.get ⟨i, hi⟩) = Ordering.lt := by
        intro i hi hik
        exact hlt (i + 1) (by simpa using hi) (by omega)
      have hnk' : ∀ h : k < xs.length, f (xs.get ⟨k, h⟩) ≠ Ordering.lt := by
        intro h
        exact hnk (by simpa using h)
      simp [lowerBoundLinear, hx, ih k hk' hlt' hnk']

theorem hasEq_true_of (f : α → Ordering) (data : List α) (i : Nat)
    (hi : i < data.length) (h : f (data.get ⟨i, hi⟩) = Ordering.eq) :
    hasEq f data = true := by
  unfold hasEq
  rw [List.any_eq_true]
  exact ⟨data.get ⟨i, hi⟩, List.get_mem data i hi, by simpa using h⟩

theorem hasEq_false_of (f : α → Ordering) (data : List α)
    (h : ∀ i (hi : i < data.length), f (data.get ⟨i, hi⟩) ≠ Ordering.eq) :
    hasEq f data = false := by
  unfold hasEq
  rw [List.any_eq_false]
  intro x hx
  obtain ⟨i, hi, rfl⟩ := List.mem_iff_get.mp hx
  simpa using h i.1 i.2

/-- Claim C5: for every sequence sorted ascending with respect to the
per-element comparison function (monotone comparisons, at most one exact
match), `binary_search_by` returns `(index, true)` with `index` the
position of an element comparing `eq` when one exists, and otherwise
`(index, false)` with `index` the position of the first element comparing
`gt` — the correct insertion point; on an empty sequence it returns
`(0, false)`; and the output coincides with the linear-scan lower-bound
reference. -/
theorem binary_search_by_meets_contract (data : List α) (f : α → Ordering)
    (hs : sortedForSearch f data) : bsearchContract data f := by
  unfold bsearchContract
  cases data with
  | nil =>
    refine ⟨rfl, ?_, ?_, fun _ => rfl⟩
    · intro h
      simp [hasEq] at h
    · intro _
      exact ⟨fun i hi => by simp at hi, fun i hi => by simp at hi⟩
  | cons x rest =>
    have hmono : ∀ i j (hi : i < (x :: rest).length)
        (hj : j < (x :: rest).length), i ≤ j →
        ordRank (f ((x :: rest).get ⟨i, hi⟩)) ≤
          ordRank (f ((x :: rest).get ⟨j, hj⟩)) := by
      intro i j hi hj hij
      rcases Nat.lt_or_ge i j with hlt | hge
      · exact (List.pairwise_iff_get.mp hs ⟨i, hi⟩ ⟨j, hj⟩ hlt).1
      · have : i = j := by omega
        subst this
        exact le_refl _
    have huniq : ∀ i j (hi : i < (x :: rest).length)
        (hj : j < (x :: rest).length), i < j →
        ¬(f ((x :: rest).get ⟨i, hi⟩) = Ordering.eq ∧
          f ((x :: rest).get ⟨j, hj⟩) = Ordering.eq) := by
      intro i j hi hj hij
      exact (List.pairwise_iff_get.mp hs ⟨i, hi⟩ ⟨j, hj⟩ hij).2
    have hrun : binary_search_by (x :: rest) f =
        bsLoop f (x :: rest) x (x :: rest).length 0 (x :: rest).length := rfl
    have hspec := bsLoop_spec f (x :: rest) x hmono (x :: rest).length 0
      (x :: rest).length (Nat.zero_le _) (le_refl _) (by omega)
      (fun i hi h => absurd h (by omega))
      (fun i hi h => absurd (Nat.lt_of_lt_of_le hi (le_refl _)) (by omega))
    rcases hspec with ⟨hidx, htrue, heq⟩ | ⟨hfalse, hle, hbelow, habove⟩
    · -- an exact match was found at the returned index
      rw [hrun]
      have hbel : ∀ i (hi : i < (x :: rest).length),
          i < (bsLoop f (x :: rest) x (x :: rest).length 0
            (x :: rest).length).1 →
          f ((x :: rest).get ⟨i, hi⟩) = Ordering.lt := by
        intro i hi hilt
        have hrank := hmono i _ hi hidx (Nat.le_of_lt hilt)
        rw [heq] at hrank
        have hnoteq := huniq i _ hi hidx hilt
        cases hcase : f ((x :: rest).get ⟨i, hi⟩) with
        | lt => rfl
        | eq => exact absurd ⟨hcase, heq⟩ hnoteq
        | gt =>
          rw [hcase] at hrank
          simp [ordRank] at hrank
      have hlb : lowerBoundLinear f (x :: rest) =
          (bsLoop f (x :: rest) x (x :: rest).length 0 (x :: rest).length).1 :=
        lowerBoundLinear_eq f (x :: rest) _ (Nat.le_of_lt hidx) hbel
          (fun h => by rw [heq]; intro hc; cases hc)
      have hhe : hasEq f (x :: rest) = true :=
        hasEq_true_of f (x :: rest) _ hidx heq
      refine ⟨?_, fun _ => ⟨hidx, heq⟩, fun hcontra => ?_, fun hnil => ?_⟩
      · rw [Prod.ext_iff]
        exact ⟨hlb.symm, by rw [htrue, hhe]⟩
      · rw [hhe] at hcontra
        cases hcontra
      · cases hnil
    · -- no exact match: the index is the first `gt` position
      rw [hrun]
      have hne : ∀ i (hi : i < (x :: rest).length),
          f ((x :: rest).get ⟨i, hi⟩) ≠ Ordering.eq := by
        intro i hi
        rcases Nat.lt_or_ge i
          ((bsLoop f (x :: rest) x (x :: rest).length 0
            (x :: rest).length).1) with hl | hg
        · rw [hbelow i hi hl]
          intro hc
          cases hc
        · rw [habove i hi hg]
          intro hc
          cases hc
      have hhe : hasEq f (x :: rest) = false := hasEq_false_of f (x :: rest) hne
      have hlb : lowerBoundLinear f (x :: rest) =
          (bsLoop f (x :: rest) x (x :: rest).length 0 (x :: rest).length).1 :=
        lowerBoundLinear_eq f (x :: rest) _ hle hbelow
          (fun h => by rw [habove _ h (le_refl _)]; intro hc; cases hc)
      refine ⟨?_, fun hcontra => ?_, fun _ => ⟨hbelow, habove⟩, fun hnil => ?_⟩
      · rw [Prod.ext_iff]
        exact ⟨hlb.symm, by rw [hfalse, hhe]⟩
      · rw [hhe] at hcontra
        cases hcontra
      · cases hnil

/-- Claim C5, witness: the contract instantiated on the sorted sequence
`[1, 2, 4]` compared against the implicit target 3 (no exact match,
insertion point 2). -/
theorem binary_search_by_contract_witness :
    bsearchContract [1, 2, 4] (fun x => natCmp x 3) :=
  binary_search_by_meets_contract [1, 2, 4] (fun x => natCmp x 3)
    (by unfold sortedForSearch; decide)

/-! ## Structural lemmas: `insertAt`, faulting search, totality of `insert` -/

theorem length_insertAt (i : Nat) (a : α) (l : List α) (h : i ≤ l.length) :
    (insertAt i a l).length = l.length + 1 := by
  simp [insertAt]
  omega

theorem mem_insertAt (i : Nat) (a b : α) (l : List α)
    (h : b ∈ insertAt i a l) : b = a ∨ b ∈ l := by
  simp only [insertAt, List.mem_append, List.mem_cons] at h
  rcases h with h | h | h
  · exact Or.inr (List.mem_of_mem_take h)
  · exact Or.inl h
  · exact Or.inr (List.mem_of_mem_drop h)

theorem get?_insertAt_self (i : Nat) (a : α) (l : List α) (h : i ≤ l.length) :
    (insertAt i a l).get? i = some a := by
  induction l generalizing i with
  | nil =>
    simp only [List.length_nil, Nat.le_zero] at h
    subst h
    rfl
  | cons x xs ih =>
    cases i with
    | zero => rfl
    | succ i =>
      have hstep : insertAt (i + 1) a (x :: xs) = x :: insertAt i a xs := by
        simp [insertAt]
      rw [hstep]
      exact ih i (by simpa using h)

theorem get?_insertAt_of_lt (i j : Nat) (a : α) (l : List α) (hj : j < i)
    (hi : i ≤ l.length) :
    (insertAt i a l).get? j = l.get? j := by
  induction l generalizing i j with
  | nil =>
    simp only [List.length_nil, Nat.le_zero] at hi
    omega
  | cons x xs ih =>
    cases i with
    | zero => omega
    | succ i =>
      have hstep : insertAt (i + 1) a (x :: xs) = x :: insertAt i a xs := by
        simp [insertAt]
      rw [hstep]
      cases j with
      | zero => rfl
      | succ j => exact ih i j (by omega) (by simpa using hi)

/-- One-step unfolding of the `bsLoopF` recursion in the looping case. -/
theorem bsLoopF_step (f : α → Option Ordering) (data : List α)
    (fuel l r : Nat) (h : l < r) :
    bsLoopF f data (fuel + 1) l r =
      match data.get? (l + (r - l) / 2) with
      | none => none
      | some x =>
        match f x with
        | none => none
        | some Ordering.gt => bsLoopF f data fuel l (l + (r - l) / 2)
        | some Ordering.eq => some (l + (r - l) / 2, true)
        | some Ordering.lt => bsLoopF f data fuel (l + (r - l) / 2 + 1) r := by
  rw [bsLoopF]
  simp only [if_pos h]

/-- The block-head search cannot fault when the comparison function is
total on the elements of the list, and its index stays within bounds. -/
theorem bsLoopF_some (f : α → Option Ordering) (data : List α)
    (hf : ∀ x ∈ data, f x ≠ none) :
    ∀ fuel l r, r ≤ data.length →
      ∃ idx b, bsLoopF f data fuel l r = some (idx, b) ∧
        idx ≤ data.length := by
  intro fuel
  induction fuel with
  | zero =>
    intro l r hr
    exact ⟨r, false, rfl, hr⟩
  | succ fuel ih =>
    intro l r hr
    by_cases hwin : l < r
    · have hmid : l + (r - l) / 2 < data.length := by omega
      have hget : data.get? (l + (r - l) / 2) =
          some (data.get ⟨l + (r - l) / 2, hmid⟩) := List.get?_eq_get hmid
      have hmem : data.get ⟨l + (r - l) / 2, hmid⟩ ∈ data :=
        List.get_mem data _ hmid
      have hred : bsLoopF f data (fuel + 1) l r =
          match f (data.get ⟨l + (r - l) / 2, hmid⟩) with
          | none => none
          | some Ordering.gt => bsLoopF f data fuel l (l + (r - l) / 2)
          | some Ordering.eq => some (l + (r - l) / 2, true)
          | some Ordering.lt => bsLoopF f data fuel (l + (r - l) / 2 + 1) r := by
        rw [bsLoopF_step f data fuel l r hwin, hget]
      rw [hred]
      cases hfx : f (data.get ⟨l + (r - l) / 2, hmid⟩) with
      | none => exact absurd hfx (hf _ hmem)
      | some o =>
        cases o with
        | gt => exact ih l (l + (r - l) / 2) (by omega)
        | eq => exact ⟨l + (r - l) / 2, true, rfl, by omega⟩
        | lt => exact ih (l + (r - l) / 2 + 1) r hr
    · have hres : bsLoopF f data (fuel + 1) l r = some (r, false) := by
        rw [bsLoopF]
        simp only [if_neg hwin]
      exact ⟨r, false, hres, hr⟩

theorem bsearchF_some (data : List α) (f : α → Option Ordering)
    (hf : ∀ x ∈ data, f x ≠ none) :
    ∃ idx b, bsearchF data f = some (idx, b) ∧ idx ≤ data.length := by
  unfold bsearchF
  by_cases h0 : data.length = 0
  · rw [if_pos h0]
    exact ⟨0, false, rfl, by omega⟩
  · rw [if_neg h0]
    exact bsLoopF_some f data hf data.length 0 data.length (le_refl _)

/-- The index returned by the pure binary search never exceeds the list
length. -/
theorem bsLoop_fst_le (f : α → Ordering) (data : List α) (d : α) :
    ∀ fuel l r, r ≤ data.length →
      (bsLoop f data d fuel l r).1 ≤ data.length := by
  intro fuel
  induction fuel with
  | zero =>
    intro l r hr
    exact hr
  | succ fuel ih =>
    intro l r hr
    by_cases hwin : l < r
    · rw [bsLoop_step f data d fuel l r hwin]
      cases hfx : f (data.getD (l + (r - l) / 2) d) with
      | gt => exact ih l (l + (r - l) / 2) (by omega)
      | eq => exact (by omega : l + (r - l) / 2 ≤ data.length)
      | lt => exact ih (l + (r - l) / 2 + 1) r hr
    · have hres : bsLoop f data d (fuel + 1) l r = (r, false) := by
        rw [bsLoop]
        simp only [if_neg hwin]
      rw [hres]
      exact hr

theorem binary_search_by_fst_le (data : List α) (f : α → Ordering) :
    (binary_search_by data f).1 ≤ data.length := by
  cases data with
  | nil => exact Nat.le_refl 0
  | cons x rest =>
    exact bsLoop_fst_le f (x :: rest) x (x :: rest).length 0
      (x :: rest).length (le_refl _)

/-- The split step never faults for capacity ≥ 2; it keeps every block
non-empty and within capacity, and hands back a candidate index that is in
bounds and whose block has strictly fewer than `capacity` elements (so the
subsequent insert cannot overflow it). -/
theorem splitStep_spec (cmp : T → T → Ordering) (cap : Nat)
    (data : List (List T)) (ib : Nat) (block0 : List T) (t : T)
    (hcap : 2 ≤ cap) (hib : ib < data.length)
    (hb0 : data.get? ib = some block0)
    (hlen : block0.length ≤ cap)
    (hall : ∀ b ∈ data, b ≠ [] ∧ b.length ≤ cap) :
    ∃ data1 idx1 block1,
      ArrayTree.splitStep cmp cap data ib block0 t = some (data1, idx1) ∧
      data1.get? idx1 = some block1 ∧
      (∀ b ∈ data1, b ≠ [] ∧ b.length ≤ cap) ∧
      block1.length < cap := by
  unfold ArrayTree.splitStep
  by_cases hsplit : cap ≤ block0.length
  · rw [if_pos hsplit]
    simp only []
    have hb0len : block0.length = cap := Nat.le_antisymm hlen hsplit
    have htail_len : (listSlice block0 (cap / 2) cap).length = cap - cap / 2 := by
      unfold listSlice
      rw [List.length_drop, List.length_take, hb0len, Nat.min_self]
    have htail_pos : 0 < (listSlice block0 (cap / 2) cap).length := by
      rw [htail_len]
      omega
    have hfront_len : (block0.take (cap / 2)).length = cap / 2 := by
      rw [List.length_take, hb0len]
      omega
    obtain ⟨h0, tl, htl⟩ : ∃ h0 tl, listSlice block0 (cap / 2) cap = h0 :: tl := by
      cases hc : listSlice block0 (cap / 2) cap with
      | nil =>
        rw [hc] at htail_pos
        simp at htail_pos
      | cons y ys => exact ⟨y, ys, rfl⟩
    rw [htl]
    simp only [List.head?_cons]
    have hd1len : (data.set ib (block0.take (cap / 2))).length = data.length :=
      List.length_set data ib _
    have hd1all : ∀ b ∈ data.set ib (block0.take (cap / 2)),
        b ≠ [] ∧ b.length ≤ cap := by
      intro b hb
      rcases List.mem_or_eq_of_mem_set hb with hmem | heqb
      · exact hall b hmem
      · subst heqb
        constructor
        · intro hnil
          rw [hnil] at hfront_len
          simp at hfront_len
          omega
        · rw [hfront_len]
          omega
    have hd2all : ∀ b ∈ insertAt (ib + 1) (h0 :: tl)
        (data.set ib (block0.take (cap / 2))), b ≠ [] ∧ b.length ≤ cap := by
      intro b hb
      rcases mem_insertAt _ _ _ _ hb with heqb | hmem
      · subst heqb
        constructor
        · simp
        · rw [← htl, htail_len]
          omega
      · exact hd1all b hmem
    by_cases hroute : cmp t h0 = Ordering.gt
    · rw [if_pos hroute]
      refine ⟨_, ib + 1, h0 :: tl, rfl, ?_, hd2all, ?_⟩
      · exact get?_insertAt_self (ib + 1) (h0 :: tl) _ (by omega)
      · rw [← htl, htail_len]
        omega
    · rw [if_neg hroute]
      refine ⟨_, ib, block0.take (cap / 2), rfl, ?_, hd2all, ?_⟩
      · rw [get?_insertAt_of_lt (ib + 1) ib _ _ (by omega)
          (by rw [hd1len]; omega)]
        exact List.get?_set_eq_of_lt _ (by omega)
      · rw [hfront_len]
        omega
  · rw [if_neg hsplit]
    exact ⟨data, ib, block0, rfl, hb0, hall, by omega⟩

/-- The placement step keeps every block non-empty and within capacity,
provided the candidate block it receives has room for one more element. -/
theorem placeStep_inv (cmp : T → T → Ordering) (s : ArrayTree T)
    (data1 : List (List T)) (idx1 : Nat) (block1 : List T) (t : T)
    (hall : ∀ b ∈ data1, b ≠ [] ∧ b.length ≤ s.capacity)
    (hb1 : block1.length < s.capacity) :
    TreeInv (ArrayTree.placeStep cmp s data1 idx1 block1 t).1 ∧
    (ArrayTree.placeStep cmp s data1 idx1 block1 t).1.capacity =
      s.capacity := by
  unfold ArrayTree.placeStep
  simp only []
  by_cases hex : (binary_search_by block1 (fun x => cmp x t)).2 = true
  · rw [if_pos hex]
    exact ⟨hall, rfl⟩
  · rw [if_neg hex]
    have hle : (binary_search_by block1 (fun x => cmp x t)).1 ≤ block1.length :=
      binary_search_by_fst_le block1 _
    have hnewlen :
        (if (binary_search_by block1 (fun x => cmp x t)).1 < block1.length then
            insertAt (binary_search_by block1 (fun x => cmp x t)).1 t block1
          else block1 ++ [t]).length = block1.length + 1 := by
      split
      · exact length_insertAt _ t block1 hle
      · simp
    constructor
    · intro b hb
      rcases List.mem_or_eq_of_mem_set hb with hmem | heqb
      · exact hall b hmem
      · subst heqb
        constructor
        · intro hnil
          rw [hnil] at hnewlen
          simp at hnewlen
        · rw [hnewlen]
          show block1.length + 1 ≤ s.capacity
          omega
    · rfl

/-- Totality of `ArrayTree::insert`: it never faults and preserves the structural
invariant, for any comparator, any value, and capacity ≥ 2. -/
theorem insert_total (cmp : T → T → Ordering) (s : ArrayTree T) (t : T)
    (hcap : 2 ≤ s.capacity) (hinv : TreeInv s) :
    ∃ s' b, ArrayTree.insert cmp s t = some (s', b) ∧ TreeInv s' ∧
      s'.capacity = s.capacity := by
  unfold ArrayTree.insert
  by_cases hd0 : s.data.length = 0
  · rw [if_pos hd0]
    refine ⟨_, true, rfl, ?_, rfl⟩
    intro b hb
    simp only [List.mem_singleton] at hb
    subst hb
    refine ⟨by simp, ?_⟩
    simp only [List.length_singleton]
    omega
  · rw [if_neg hd0]
    have hf : ∀ block ∈ s.data,
        (fun block => (block.head?).map (fun h => cmp h t)) block ≠ none := by
      intro block hb
      have hne := (hinv block hb).1
      cases block with
      | nil => exact absurd rfl hne
      | cons a l => simp
    obtain ⟨idxB, eqB, hbs, hidxle⟩ := bsearchF_some s.data _ hf
    rw [hbs]
    cases eqB with
    | true => exact ⟨s, false, rfl, hinv, rfl⟩
    | false =>
      show ∃ s' b,
        (match s.data.get? (if 0 < idxB then idxB - 1 else 0) with
          | none => none
          | some block0 =>
            match ArrayTree.splitStep cmp s.capacity s.data
                (if 0 < idxB then idxB - 1 else 0) block0 t with
            | none => none
            | some (data1, idx1) =>
              match data1.get? idx1 with
              | none => none
              | some block1 =>
                some (ArrayTree.placeStep cmp s data1 idx1 block1 t)) =
          some (s', b) ∧ TreeInv s' ∧ s'.capacity = s.capacity
      set ib := if 0 < idxB then idxB - 1 else 0 with hibdef
      have hib : ib < s.data.length := by
        rw [hibdef]
        split <;> omega
      have hget := List.get?_eq_get hib
      rw [hget]
      show ∃ s' b,
        (match ArrayTree.splitStep cmp s.capacity s.data ib
            (s.data.get ⟨ib, hib⟩) t with
          | none => none
          | some (data1, idx1) =>
            match data1.get? idx1 with
            | none => none
            | some block1 =>
              some (ArrayTree.placeStep cmp s data1 idx1 block1 t)) =
          some (s', b) ∧ TreeInv s' ∧ s'.capacity = s.capacity
      obtain ⟨data1, idx1, block1, hsp, hg1, hall1, hb1lt⟩ :=
        splitStep_spec cmp s.capacity s.data ib (s.data.get ⟨ib, hib⟩) t hcap
          hib hget (hinv _ (List.get_mem _ _ _)).2 hinv
      rw [hsp]
      show ∃ s' b,
        (match data1.get? idx1 with
          | none => none
          | some block1 =>
            some (ArrayTree.placeStep cmp s data1 idx1 block1 t)) =
          some (s', b) ∧ TreeInv s' ∧ s'.capacity = s.capacity
      rw [hg1]
      refine ⟨(ArrayTree.placeStep cmp s data1 idx1 block1 t).1,
        (ArrayTree.placeStep cmp s data1 idx1 block1 t).2, rfl, ?_, ?_⟩
      · exact (placeStep_inv cmp s data1 idx1 block1 t hall1 hb1lt).1
      · exact (placeStep_inv cmp s data1 idx1 block1 t hall1 hb1lt).2

/-- Iterated form of `insert_total` along any insertion sequence. -/
theorem insertSeq_inv (cmp : T → T → Ordering) (ts : List T) :
    ∀ s : ArrayTree T, 2 ≤ s.capacity → TreeInv s →
      ∃ s', ArrayTree.insertSeq cmp ts s = some s' ∧ TreeInv s' ∧
        s'.capacity = s.capacity := by
  induction ts with
  | nil =>
    intro s hcap hinv
    exact ⟨s, rfl, hinv, rfl⟩
  | cons t rest ih =>
    intro s hcap hinv
    obtain ⟨s1, b, hins, hinv1, hcap1⟩ := insert_total cmp s t hcap hinv
    have hstep : ArrayTree.insertSeq cmp (t :: rest) s =
        ArrayTree.insertSeq cmp rest s1 := by
      show (match ArrayTree.insert cmp s t with
        | none => none
        | some (s1, _) => ArrayTree.insertSeq cmp rest s1) =
        ArrayTree.insertSeq cmp rest s1
      rw [hins]
    rw [hstep]
    obtain ⟨s', hseq, hinv', hcap'⟩ := ih s1 (by omega) hinv1
    exact ⟨s', hseq, hinv', by rw [hcap', hcap1]⟩

/-- The empty tree satisfies the structural invariant. -/
theorem treeInv_new (cap : Nat) : TreeInv (ArrayTree.new (T := T) cap) := by
  intro b hb
  cases hb

/-- Claim C4 (amended: capacity ≥ 2 instead of ≥ 1): for every comparator
and every finite insertion sequence starting from a newly constructed tree
with capacity ≥ 2, no insert faults — every vector index and slice access
(including `block[0]` in the head search and the
`[capacity/2 .. capacity]` slice of the split) stays in bounds, so each
operation runs to completion; `len`, `traverse` and `collect` are total by
construction.  (Capacity 1 does fault, see the counterexample.) -/
theorem insert_sequence_never_faults (cmp : T → T → Ordering) (cap : Nat)
    (ts : List T) (hcap : 2 ≤ cap) :
    (ArrayTree.insertSeq cmp ts (ArrayTree.new cap)).isSome = true := by
  obtain ⟨s', hseq, _, _⟩ :=
    insertSeq_inv cmp ts (ArrayTree.new cap) hcap (treeInv_new cap)
  rw [hseq]
  rfl

/-- Claim C4, witness at capacity 2 with inserts 5, 3, 4. -/
theorem insert_sequence_never_faults_witness :
    (ArrayTree.insertSeq natCmp [5, 3, 4] (ArrayTree.new 2)).isSome = true :=
  insert_sequence_never_faults natCmp 2 [5, 3, 4] (by decide)

/-- Claim C3 (amended: capacity ≥ 2 instead of ≥ 1): after every insertion
sequence into a tree constructed with capacity ≥ 2, every block length is
at most the capacity.  (Capacity 1 overflows, see the counterexample.) -/
theorem blocks_within_capacity (cmp : T → T → Ordering) (cap : Nat)
    (ts : List T) (s' : ArrayTree T) (hcap : 2 ≤ cap)
    (hrun : ArrayTree.insertSeq cmp ts (ArrayTree.new cap) = some s') :
    blocksLenLe s' cap := by
  obtain ⟨s'', hseq, hinv, hcapeq⟩ :=
    insertSeq_inv cmp ts (ArrayTree.new cap) hcap (treeInv_new cap)
  rw [hrun] at hseq
  have hs : s'' = s' := by
    injection hseq with h
    exact h.symm
  subst hs
  intro b hb
  have h := (hinv b hb).2
  rw [hcapeq] at h
  exact h

/-- Claim C3, witness: the tree reached by inserting 1, 2, 3 at capacity 2
has all blocks within capacity. -/
theorem blocks_within_capacity_witness :
    blocksLenLe (⟨[[1], [2, 3]], 2, 2⟩ : ArrayTree Nat) 2 :=
  blocks_within_capacity natCmp 2 [1, 2, 3] ⟨[[1], [2, 3]], 2, 2⟩
    (by decide) (by rfl)

/-- Claim C9: in every state reachable by insertions from a fresh tree
with capacity ≥ 2 every block is non-empty (has a first element); in the
proof, both split halves are non-empty precisely because
`capacity / 2 ≥ 1` and `capacity - capacity / 2 ≥ 1` when capacity ≥ 2. -/
theorem blocks_nonempty_reachable (cmp : T → T → Ordering) (cap : Nat)
    (ts : List T) (s' : ArrayTree T) (hcap : 2 ≤ cap)
    (hrun : ArrayTree.insertSeq cmp ts (ArrayTree.new cap) = some s') :
    blocksNonempty s' := by
  obtain ⟨s'', hseq, hinv, hcapeq⟩ :=
    insertSeq_inv cmp ts (ArrayTree.new cap) hcap (treeInv_new cap)
  rw [hrun] at hseq
  have hs : s'' = s' := by
    injection hseq with h
    exact h.symm
  subst hs
  intro b hb
  exact (hinv b hb).1

/-- Claim C9, witness: the tree reached by inserting 4, 5, 6 at capacity 2
has only non-empty blocks. -/
theorem blocks_nonempty_reachable_witness :
    blocksNonempty (⟨[[4], [5, 6]], 2, 2⟩ : ArrayTree Nat) :=
  blocks_nonempty_reachable natCmp 2 [4, 5, 6] ⟨[[4], [5, 6]], 2, 2⟩
    (by decide) (by rfl)

/-! ## Frame property of a single insert -/

theorem set_len_append (l1 : List α) (a v : α) (l2 : List α) :
    (l1 ++ a :: l2).set l1.length v = l1 ++ v :: l2 := by
  induction l1 with
  | nil => rfl
  | cons x xs ih => simp [List.set, ih]

theorem set_append_cons (l1 : List α) (a v : α) (l2 : List α) (n : Nat)
    (h : n = l1.length) : (l1 ++ a :: l2).set n v = l1 ++ v :: l2 := by
  subst h
  exact set_len_append l1 a v l2

theorem insertAt_append (l1 : List α) (v : α) (l2 : List α) (n : Nat)
    (h : n = l1.length) : insertAt n v (l1 ++ l2) = l1 ++ v :: l2 := by
  subst h
  unfold insertAt
  rw [List.take_left, List.drop_left]

theorem take_cons_drop_of_get? (l : List α) (n : Nat) (a : α)
    (h : l.get? n = some a) : l = l.take n ++ a :: l.drop (n + 1) := by
  induction l generalizing n with
  | nil => cases h
  | cons x xs ih =>
    cases n with
    | zero =>
      injection h with h
      subst h
      rfl
    | succ n =>
      have := ih n h
      calc x :: xs = x :: (xs.take n ++ a :: xs.drop (n + 1)) := by rw [← this]
        _ = (x :: xs).take (n + 1) ++ a :: (x :: xs).drop (n + 2) := by simp

/-- Shape of the block sequence after a split: the candidate block at `ib`
is replaced in place by the two halves. -/
theorem split_data_shape (data : List (List T)) (ib : Nat)
    (front tail : List T) (hib : ib < data.length) :
    insertAt (ib + 1) tail (data.set ib front) =
      data.take ib ++ front :: tail :: data.drop (ib + 1) := by
  rw [List.set_eq_take_cons_drop front hib]
  have hshape : data.take ib ++ front :: data.drop (ib + 1) =
      (data.take ib ++ [front]) ++ data.drop (ib + 1) := by simp
  rw [hshape, insertAt_append (data.take ib ++ [front]) tail _ (ib + 1)
    (by simp [List.length_take_of_le (Nat.le_of_lt hib)])]
  simp

/-- The split step either leaves the block sequence untouched or replaces
the candidate block in place by its two halves, and the candidate index it
returns is the original one or its successor. -/
theorem splitStep_frame (cmp : T → T → Ordering) (cap : Nat)
    (data : List (List T)) (ib : Nat) (block0 : List T) (t : T)
    (data1 : List (List T)) (idx1 : Nat) (hib : ib < data.length)
    (h : ArrayTree.splitStep cmp cap data ib block0 t = some (data1, idx1)) :
    (data1 = data ∧ idx1 = ib) ∨
    (∃ front tail,
      data1 = data.take ib ++ front :: tail :: data.drop (ib + 1) ∧
      (idx1 = ib ∨ idx1 = ib + 1)) := by
  unfold ArrayTree.splitStep at h
  by_cases hsplit : cap ≤ block0.length
  · rw [if_pos hsplit] at h
    simp only [] at h
    cases hhd : (listSlice block0 (cap / 2) cap).head? with
    | none =>
      rw [hhd] at h
      cases h
    | some h0 =>
      rw [hhd] at h
      replace h : (if cmp t h0 = Ordering.gt then
          some (insertAt (ib + 1) (listSlice block0 (cap / 2) cap)
            (data.set ib (List.take (cap / 2) block0)), ib + 1)
        else
          some (insertAt (ib + 1) (listSlice block0 (cap / 2) cap)
            (data.set ib (List.take (cap / 2) block0)), ib)) =
          some (data1, idx1) := h
      by_cases hroute : cmp t h0 = Ordering.gt
      · rw [if_pos hroute] at h
        injection h with h
        injection h with h1 h2
        refine Or.inr ⟨block0.take (cap / 2), listSlice block0 (cap / 2) cap,
          ?_, Or.inr h2.symm⟩
        rw [← h1]
        exact split_data_shape data ib _ _ hib
      · rw [if_neg hroute] at h
        injection h with h
        injection h with h1 h2
        refine Or.inr ⟨block0.take (cap / 2), listSlice block0 (cap / 2) cap,
          ?_, Or.inl h2.symm⟩
        rw [← h1]
        exact split_data_shape data ib _ _ hib
  · rw [if_neg hsplit] at h
    injection h with h
    injection h with h1 h2
    exact Or.inl ⟨h1.symm, h2.symm⟩

/-- The placement step changes at most the candidate block of the sequence
it is given, and never the capacity. -/
theorem placeStep_frame (cmp : T → T → Ordering) (s : ArrayTree T)
    (data1 : List (List T)) (idx1 : Nat) (block1 : List T) (t : T) :
    (ArrayTree.placeStep cmp s data1 idx1 block1 t).1.capacity = s.capacity ∧
    ((ArrayTree.placeStep cmp s data1 idx1 block1 t).1.data = data1 ∨
      ∃ nb, (ArrayTree.placeStep cmp s data1 idx1 block1 t).1.data =
        data1.set idx1 nb) := by
  unfold ArrayTree.placeStep
  simp only []
  split
  · exact ⟨rfl, Or.inl rfl⟩
  · exact ⟨rfl, Or.inr ⟨_, rfl⟩⟩

/-- Claim C10: a single `insert` call modifies at most the one candidate
block located by the head search, inserts at most one brand-new block and
only immediately after the candidate (the block sequence is unchanged
outside one position, where at most two blocks now stand), and leaves the
capacity field unchanged (the comparator, modelled as an external
parameter, is never written). -/
theorem insert_frame (cmp : T → T → Ordering) (s : ArrayTree T) (t : T)
    (s' : ArrayTree T) (b : Bool)
    (h : ArrayTree.insert cmp s t = some (s', b)) : frameShape s s' := by
  unfold ArrayTree.insert at h
  by_cases hd0 : s.data.length = 0
  · rw [if_pos hd0] at h
    injection h with h
    injection h with h1 h2
    subst h1
    constructor
    · rfl
    · refine ⟨0, [[t]], by omega, by simp, ?_⟩
      have hdata : s.data = [] := List.length_eq_zero.mp hd0
      rw [hdata]
      simp
  · rw [if_neg hd0] at h
    cases hbs : bsearchF s.data
        (fun block => (block.head?).map (fun hh => cmp hh t)) with
    | none =>
      rw [hbs] at h
      exact Option.noConfusion h
    | some p =>
      obtain ⟨idxB, eqB⟩ := p
      rw [hbs] at h
      cases eqB with
      | true =>
        replace h : some (s, false) = some (s', b) := h
        injection h with h
        injection h with h1 h2
        subst h1
        constructor
        · rfl
        · cases hdata : s.data with
          | nil =>
            rw [hdata] at hd0
            simp at hd0
          | cons b0 rest =>
            refine ⟨0, [b0], by omega, by simp, ?_⟩
            simp
      | false =>
        replace h : (match s.data.get? (if 0 < idxB then idxB - 1 else 0) with
          | none => none
          | some block0 =>
            match ArrayTree.splitStep cmp s.capacity s.data
                (if 0 < idxB then idxB - 1 else 0) block0 t with
            | none => none
            | some (data1, idx1) =>
              match data1.get? idx1 with
              | none => none
              | some block1 =>
                some (ArrayTree.placeStep cmp s data1 idx1 block1 t)) =
            some (s', b) := h
        set ib := if 0 < idxB then idxB - 1 else 0 with hibdef
        cases hget : s.data.get? ib with
        | none =>
          rw [hget] at h
          exact Option.noConfusion h
        | some block0 =>
          rw [hget] at h
          have hib : ib < s.data.length := (List.get?_eq_some.mp hget).1
          replace h :
              (match ArrayTree.splitStep cmp s.capacity s.data ib block0 t with
                | none => none
                | some (data1, idx1) =>
                  match data1.get? idx1 with
                  | none => none
                  | some block1 =>
                    some (ArrayTree.placeStep cmp s data1 idx1 block1 t)) =
                some (s', b) := h
          cases hsp : ArrayTree.splitStep cmp s.capacity s.data ib block0 t with
          | none =>
            rw [hsp] at h
            exact Option.noConfusion h
          | some q =>
            obtain ⟨data1, idx1⟩ := q
            rw [hsp] at h
            replace h : (match data1.get? idx1 with
              | none => none
              | some block1 =>
                some (ArrayTree.placeStep cmp s data1 idx1 block1 t)) =
                some (s', b) := h
            cases hg1 : data1.get? idx1 with
            | none =>
              rw [hg1] at h
              exact Option.noConfusion h
            | some block1 =>
              rw [hg1] at h
              replace h :
                  some (ArrayTree.placeStep cmp s data1 idx1 block1 t) =
                    some (s', b) := h
              injection h with h
              have hs' : s' = (ArrayTree.placeStep cmp s data1 idx1 block1 t).1 := by
                rw [h]
              obtain ⟨hcap', hdata'⟩ := placeStep_frame cmp s data1 idx1 block1 t
              constructor
              · rw [hs']
                exact hcap'
              · rcases splitStep_frame cmp s.capacity s.data ib block0 t data1
                  idx1 hib hsp with ⟨hd1, hi1⟩ | ⟨front, tail, hd1, hi1⟩
                · rcases hdata' with hpd | ⟨nb, hpd⟩
                  · refine ⟨ib, [block0], by omega, by simp, ?_⟩
                    rw [hs', hpd, hd1]
                    simpa using take_cons_drop_of_get? s.data ib block0 hget
                  · refine ⟨ib, [nb], by omega, by simp, ?_⟩
                    rw [hs', hpd, hd1, hi1]
                    rw [List.set_eq_take_cons_drop nb hib]
                    simp
                · rcases hdata' with hpd | ⟨nb, hpd⟩
                  · refine ⟨ib, [front, tail], by omega, by simp, ?_⟩
                    rw [hs', hpd, hd1]
                    simp
                  · rcases hi1 with hi1 | hi1
                    · refine ⟨ib, [nb, tail], by omega, by simp, ?_⟩
                      rw [hs', hpd, hd1, hi1]
                      rw [set_append_cons (s.data.take ib) front nb
                        (tail :: s.data.drop (ib + 1)) ib
                        (List.length_take_of_le (Nat.le_of_lt hib)).symm]
                      simp
                    · refine ⟨ib, [front, nb], by omega, by simp, ?_⟩
                      rw [hs', hpd, hd1, hi1]
                      have hsh : s.data.take ib ++
                          front :: tail :: s.data.drop (ib + 1) =
                          (s.data.take ib ++ [front]) ++
                            tail :: s.data.drop (ib + 1) := by simp
                      rw [hsh, set_append_cons (s.data.take ib ++ [front]) tail
                        nb (s.data.drop (ib + 1)) (ib + 1)
                        (by simp [List.length_take_of_le (Nat.le_of_lt hib)])]
                      simp

/-- Claim C10, witness: inserting 3 into the one-block tree `[[1, 2]]`
(capacity 2) splits the block and yields `[[1], [2, 3]]`, which replaces
the candidate block in place by two blocks. -/
theorem insert_frame_witness :
    frameShape (⟨[[1, 2]], 2, 2⟩ : ArrayTree Nat) ⟨[[1], [2, 3]], 2, 3⟩ :=
  insert_frame natCmp ⟨[[1, 2]], 2, 2⟩ 3 ⟨[[1], [2, 3]], 2, 3⟩ true rfl

/-! ## Concrete evaluations: the duplicate-miss bug, the count bug, and the
capacity-1 failures -/

/-- Claim C1, refuting evaluation: with capacity 2, inserting 1, 2, 2 from a
fresh tree makes the third insert split `[1, 2]`, route the duplicate 2 to
the front half (the routing comparison against the tail head yields `eq`,
not `gt`), miss the equal element sitting in the tail half, return `true`,
and leave `collect()` equal to `[1, 2, 2]` instead of the de-duplicated
`[1, 2]`. -/
theorem insert_duplicate_missed :
    ArrayTree.insertSeq natCmp [1, 2, 2] (ArrayTree.new 2) =
      some ⟨[[1, 2], [2]], 2, 2⟩ ∧
    ArrayTree.insert natCmp ⟨[[1, 2]], 2, 1⟩ 2 =
      some (⟨[[1, 2], [2]], 2, 2⟩, true) ∧
    ArrayTree.collect (⟨[[1, 2], [2]], 2, 2⟩ : ArrayTree Nat) = [1, 2, 2] := by
  refine ⟨rfl, rfl, rfl⟩

/-- Claim C2, refuting evaluation: after inserting 1, 2, 2 with capacity 2,
`collect()` is `[1, 2, 2]`, which is not strictly ascending under the
comparator (the adjacent pair 2, 2 compares `eq`, not `lt`), and the two
adjacent blocks `[1, 2]` and `[2]` violate the cross-block ordering. -/
theorem collect_not_strictly_ascending :
    (ArrayTree.insertSeq natCmp [1, 2, 2] (ArrayTree.new 2)).map
        ArrayTree.collect = some [1, 2, 2] ∧
    ¬ strictAscending natCmp [1, 2, 2] := by
  refine ⟨rfl, by simp [strictAscending, natCmp]⟩

/-- Claim C6, refuting evaluation: the state with single block `[1, 2]` is
reachable (capacity 2, inserts 1 then 2); 2 is present in it, yet
`insert 2` returns `true` (and inserts a second copy), so `insert` does not
return `false` whenever a comparator-equal value is present.  Moreover a
`false` return can mutate the internal state: with capacity 4, inserting 4
into the reachable one-block tree `[[1, 2, 3, 4]]` splits the block before
the within-block search detects the duplicate, returning `false` but
leaving the layout changed to `[[1, 2], [3, 4]]`. -/
theorem insert_false_contract_violated :
    ArrayTree.insertSeq natCmp [1, 2] (ArrayTree.new 2) =
      some ⟨[[1, 2]], 2, 1⟩ ∧
    (2 ∈ ArrayTree.collect (⟨[[1, 2]], 2, 1⟩ : ArrayTree Nat)) ∧
    ArrayTree.insert natCmp ⟨[[1, 2]], 2, 1⟩ 2 =
      some (⟨[[1, 2], [2]], 2, 2⟩, true) ∧
    ArrayTree.insertSeq natCmp [1, 2, 3, 4] (ArrayTree.new 4) =
      some ⟨[[1, 2, 3, 4]], 4, 3⟩ ∧
    ArrayTree.insert natCmp ⟨[[1, 2, 3, 4]], 4, 3⟩ 4 =
      some (⟨[[1, 2], [3, 4]], 4, 3⟩, false) := by
  refine ⟨rfl, by decide, rfl, rfl, rfl⟩

/-- Claim C7: from blocks `[[2, 4], [6, 8]]` with capacity 2 and count 4,
`insert 5` splits the full candidate block `[2, 4]` at `capacity / 2 = 1`,
routes the value to the tail half (5 compares `gt` against its head 4),
and yields blocks `[[2], [4, 5], [6, 8]]` with count 5, returning `true`. -/
theorem insert_five_scenario :
    ArrayTree.insert natCmp ⟨[[2, 4], [6, 8]], 2, 4⟩ 5 =
      some (⟨[[2], [4, 5], [6, 8]], 2, 5⟩, true) ∧
    ArrayTree.len (⟨[[2], [4, 5], [6, 8]], 2, 5⟩ : ArrayTree Nat) = 5 ∧
    ArrayTree.collect (⟨[[2], [4, 5], [6, 8]], 2, 5⟩ : ArrayTree Nat) =
      [2, 4, 5, 6, 8] := by
  refine ⟨rfl, rfl, rfl⟩

/-- Claim C8, refuting evaluation: the very first insert into an empty tree
takes the early-return path that pushes a new block but never increments
`num_elements`, so immediately after it `len()` is 0 while `collect()` has
one element; the cached count is off by one from then on. -/
theorem len_ne_collect_len_after_first_insert :
    ArrayTree.insert natCmp (ArrayTree.new 2) 1 =
      some (⟨[[1]], 2, 0⟩, true) ∧
    ArrayTree.len (⟨[[1]], 2, 0⟩ : ArrayTree Nat) = 0 ∧
    (ArrayTree.collect (⟨[[1]], 2, 0⟩ : ArrayTree Nat)).length = 1 := by
  refine ⟨rfl, rfl, rfl⟩

/-- Claim C3, counterexample to the capacity ≥ 1 form: with capacity 1,
inserting 1 then 2 splits `[1]` at `1 / 2 = 0`, leaving an empty front
block, and then grows the tail block to `[1, 2]`, whose length 2 exceeds
the capacity 1. -/
theorem capacity_one_block_overflow :
    ArrayTree.insertSeq natCmp [1, 2] (ArrayTree.new 1) =
      some ⟨[[], [1, 2]], 1, 1⟩ ∧
    ¬ blocksLenLe (⟨[[], [1, 2]], 1, 1⟩ : ArrayTree Nat) 1 := by
  refine ⟨rfl, by unfold blocksLenLe; decide⟩

/-- Claim C4, counterexample to the capacity ≥ 1 form: with capacity 1 the
sequence 1, 2, 3, 4 faults — the splits leave empty blocks behind, and the
head binary search of the fourth insert probes an empty block, so the Rust
code executes `block[0]` out of bounds (modelled as the `none` result). -/
theorem capacity_one_insert_faults :
    ArrayTree.insertSeq natCmp [1, 2, 3, 4] (ArrayTree.new 1) = none ∧
    ArrayTree.insertSeq natCmp [1, 2, 3] (ArrayTree.new 1) =
      some ⟨[[], [], [1, 3]], 1, 2⟩ := by
  refine ⟨rfl, rfl⟩
